import Mathlib

/-!
Verification of the Pluto runtime core (src/runtime/threading.c and
src/runtime/gc/marksweep.c) against its natural-language specification.

The C code is shallowly embedded: channel and task handles become Lean
structures whose fields mirror the 8-byte slots of the C handles, the
channel/task/select entry points become pure state-transition functions,
and the mark-sweep collector's mark loop becomes an explicit fuel-indexed
worklist recursion.  C `long` values are modelled as `Int` (no operation
verified here can overflow a 64-bit quantity along the modelled paths).
-/

namespace Pluto

/-! ## Channel model

Channel handle layout in threading.c (`__pluto_chan_create`):
slot 0 `sync_ptr` (irrelevant to the state semantics), slot 1 `buf_ptr`
(circular buffer of i64, modelled as `List Int` of length `cap`),
slot 2 `capacity`, slot 3 `count`, slot 4 `head`, slot 5 `tail`,
slot 6 `closed`, slot 7 `sender_count`. -/

structure Chan where
  buf : List Int
  cap : Int
  count : Int
  head : Int
  tail : Int
  closed : Bool
  senderCount : Int
deriving Repr, DecidableEq

instance : Inhabited Chan :=
  ⟨{ buf := [0], cap := 1, count := 0, head := 0, tail := 0,
     closed := false, senderCount := 1 }⟩

/-- Read of the circular buffer at a (nonnegative) index, as `buf[i]` in C. -/
def bufGet (buf : List Int) (i : Int) : Int := buf.getD i.toNat 0

/-- Write of the circular buffer at a (nonnegative) index, as `buf[i] = v` in C. -/
def bufSet (buf : List Int) (i : Int) (v : Int) : List Int := buf.set i.toNat v

/-- Embedding of `__pluto_chan_create` (threading.c:1109 test mode,
threading.c:1299 production mode; both assign the same slot values):
`actual_cap = capacity > 0 ? capacity : 1`, zeroed calloc buffer of
`actual_cap` slots, `count = head = tail = closed = 0`, `sender_count = 1`. -/
def chanCreate (capacity : Int) : Chan :=
  let actualCap := if capacity > 0 then capacity else 1
  { buf := List.replicate actualCap.toNat 0
    cap := actualCap
    count := 0
    head := 0
    tail := 0
    closed := false
    senderCount := 1 }

/-- Outcome of one attempted send.  `closedErr` is the `chan_raise_error
("channel closed")` path, which returns without touching the channel;
`blocked` is the fiber-mode `FIBER_BLOCKED_CHAN_SEND` yield (no state
change has happened when the fiber suspends). -/
inductive SendRes where
  | ok (ch : Chan)
  | closedErr
  | blocked
deriving Repr, DecidableEq

/-- Outcome of one attempted recv, mirroring `__pluto_chan_recv`. -/
inductive RecvRes where
  | ok (v : Int) (ch : Chan)
  | closedErr
  | blocked
deriving Repr, DecidableEq

/-- Embedding of the test-mode fiber body of `__pluto_chan_send`
(threading.c:1124): first `if (ch[6])` raise closed; then if
`ch[3] < ch[2]` write at the tail, advance it modulo capacity and
increment the count; otherwise block.  The production-mode body
(threading.c:1322) performs the identical state transition. -/
def chanSend (ch : Chan) (v : Int) : SendRes :=
  if ch.closed then .closedErr
  else if ch.count < ch.cap then
    .ok { ch with
          buf := bufSet ch.buf ch.tail v
          tail := (ch.tail + 1) % ch.cap
          count := ch.count + 1 }
  else .blocked

/-- Embedding of the test-mode fiber body of `__pluto_chan_recv`
(threading.c:1174): first if `ch[3] > 0` read at the head, advance it
modulo capacity and decrement the count; then `if (ch[6])` raise closed;
otherwise block.  Note the check order is the reverse of send: a closed
channel still drains its buffer.  The production-mode body
(threading.c:1350) performs the identical state transition. -/
def chanRecv (ch : Chan) : RecvRes :=
  if 0 < ch.count then
    .ok (bufGet ch.buf ch.head)
      { ch with
        head := (ch.head + 1) % ch.cap
        count := ch.count - 1 }
  else if ch.closed then .closedErr
  else .blocked

/-- Embedding of `__pluto_chan_close` (threading.c:1265): sets slot 6. -/
def chanClose (ch : Chan) : Chan := { ch with closed := true }

/-- Embedding of `__pluto_chan_sender_inc` (threading.c:1275). -/
def chanSenderInc (ch : Chan) : Chan := { ch with senderCount := ch.senderCount + 1 }

/-- Embedding of `__pluto_chan_sender_dec` (threading.c:1281 test mode,
threading.c:1443 production mode): reads `old = ch[7]` and decrements; if
`old <= 0` the decrement is undone (underflow guard) and nothing else
happens; if `old == 1` the channel is closed. -/
def chanSenderDec (ch : Chan) : Chan :=
  let old := ch.senderCount
  if old ≤ 0 then ch
  else if old = 1 then chanClose { ch with senderCount := old - 1 }
  else { ch with senderCount := old - 1 }

/-- The FIFO content of the circular buffer: the `count` live slots
starting at `head`, in arrival order (the slots `__pluto_chan_recv` would
return, in order). -/
def chanQueue (ch : Chan) : List Int :=
  (List.range ch.count.toNat).map (fun (i : Nat) => bufGet ch.buf ((ch.head + (i : Int)) % ch.cap))

/-! ## Send/recv traces (claim C2) -/

/-- One attempted operation on a channel (no close). -/
inductive ChanAct where
  | send (v : Int)
  | recv
deriving Repr, DecidableEq

/-- Apply one attempted operation; the `Bool` records whether the
operation completed (wrote or read a value).  A blocked or erroring
operation leaves the channel unchanged. -/
def chanStep (ch : Chan) : ChanAct → Chan × Bool
  | .send v =>
    match chanSend ch v with
    | .ok ch2 => (ch2, true)
    | _ => (ch, false)
  | .recv =>
    match chanRecv ch with
    | .ok _ ch2 => (ch2, true)
    | _ => (ch, false)

/-- Run a sequence of attempted operations, returning the final channel
together with the number of completed sends and completed receives. -/
def chanRunCount (ch : Chan) : List ChanAct → Chan × Nat × Nat
  | [] => (ch, 0, 0)
  | a :: rest =>
    let s := chanStep ch a
    let r := chanRunCount s.1 rest
    match a with
    | .send _ => (r.1, r.2.1 + (if s.2 then 1 else 0), r.2.2)
    | .recv => (r.1, r.2.1, r.2.2 + (if s.2 then 1 else 0))

/-! ## Sender reference-count traces (claim C5) -/

/-- One call to the sender reference-count interface. -/
inductive SenderAct where
  | inc
  | dec
deriving Repr, DecidableEq

/-- Apply one sender-count call. -/
def senderStep (ch : Chan) : SenderAct → Chan
  | .inc => chanSenderInc ch
  | .dec => chanSenderDec ch

/-- Run a sequence of `sender_inc`/`sender_dec` calls. -/
def senderRun (ch : Chan) (acts : List SenderAct) : Chan :=
  acts.foldl senderStep ch

/-- Number of steps of a run at which the `closed` flag transitions from
false to true. -/
def closeTransitions (ch : Chan) : List SenderAct → Nat
  | [] => 0
  | a :: rest =>
    let ch2 := senderStep ch a
    (if ch.closed = false ∧ ch2.closed = true then 1 else 0) + closeTransitions ch2 rest

/-! ## GC allocation threshold (claim C8) -/

/-- Embedding of the threshold reset at the end of `__pluto_gc_collect`
(marksweep.c:751): `gc_threshold = surviving * 2; if (gc_threshold <
256 * 1024) gc_threshold = 256 * 1024;` where `surviving` is
`gc_bytes_allocated` after subtracting the freed bytes. -/
def gcNewThreshold (surviving : Nat) : Nat :=
  let t := surviving * 2
  if t < 256 * 1024 then 256 * 1024 else t

/-! ## Task model (claim C3)

Task handle layout in threading.c: slot 0 `closure`, slot 1 `result`,
slot 2 `error` (error-object pointer, 0 when none), slot 3 `done`,
slot 4 `sync_ptr`, slot 5 `detached`, slot 6 `cancelled`.  Only the
slots that `__pluto_task_get` inspects are modelled. -/

structure Task where
  result : Int
  error : Int
  done : Bool
  cancelled : Bool
deriving Repr, DecidableEq

/-- Outcome of `__pluto_task_get`: raise the cancellation error, re-raise
the stored error object, return a value, or block the calling fiber. -/
inductive GetRes where
  | cancelledErr
  | errorRaised (e : Int)
  | value (v : Int)
  | blocks
deriving Repr, DecidableEq

/-- Embedding of the test-mode `__pluto_task_get` (threading.c:658): first
`if (task[6] && !task[1] && !task[2])` raise the cancellation error; then
block until `task[3]` (done); then re-raise `task[2]` if set, else return
`task[1]`.  The production-mode body (threading.c:799) waits for `done`
first and then performs the same three checks, so on completed tasks the
two modes agree. -/
def taskGet (t : Task) : GetRes :=
  if t.cancelled = true ∧ t.result = 0 ∧ t.error = 0 then .cancelledErr
  else if t.done = false then .blocks
  else if t.error ≠ 0 then .errorRaised t.error
  else .value t.result

/-- A freshly spawned task handle: `__pluto_task_spawn` zeroes slots 1-6
(threading.c:614). -/
def taskNew : Task :=
  { result := 0, error := 0, done := false, cancelled := false }

/-- Embedding of `__pluto_task_cancel` (threading.c:698): sets slot 6. -/
def taskCancel (t : Task) : Task := { t with cancelled := true }

/-- Embedding of the completion write-back in `fiber_entry_fn`
(threading.c:329): if the closure raised, store the error object in slot 2,
otherwise store the returned value in slot 1; then set `done`. -/
def taskFinish (t : Task) (res : Int) (err : Int) : Task :=
  if err ≠ 0 then { t with error := err, done := true }
  else { t with result := res, done := true }

/-! ## Select (claim C6) -/

/-- One select arm: the index of its channel in the channel store (the
`handles[i]` pointer), its operation (`ops[i]`: true = send), and its
value slot (`values[i]`: send value in, recv value out). -/
structure SelectArm where
  chanIdx : Nat
  isSend : Bool
  value : Int
deriving Repr, DecidableEq

instance : Inhabited SelectArm := ⟨{ chanIdx := 0, isSend := false, value := 0 }⟩

/-- Result of `select_try_arms` (threading.c:1478): either arm `i` fired
(carrying the updated channel store and, for a recv, the value written to
`values[i]`), or no arm was ready and every arm's channel was closed
(C return value -2), or no arm was ready but some channel was open
(C return value -3).  In the last two cases no channel was modified. -/
inductive TryRes where
  | fired (i : Nat) (store : List Chan) (recvVal : Option Int)
  | allClosed
  | notReady
deriving Repr, DecidableEq

/-- Whether an arm is ready in a given store: a recv arm needs a nonempty
buffer, a send arm an open channel with free space — exactly the
conditions under which `select_try_arms` fires the arm. -/
def armReady (store : List Chan) (arm : SelectArm) : Bool :=
  let ch := store.getD arm.chanIdx default
  if arm.isSend then (!ch.closed && decide (ch.count < ch.cap))
  else decide (0 < ch.count)

/-- Embedding of `select_try_arms` (threading.c:1478): walk the arms in
the shuffled order `order`; a recv arm with `ch[3] > 0` pops at the head
and fires; a send arm with `!ch[6] && ch[3] < ch[2]` pushes at the tail
and fires; a non-ready arm whose channel is open clears the running
`all_closed` flag.  The in-place buffer operations are exactly those of
`chanSend`/`chanRecv`, which is how they are embedded. -/
def selectTryArms (store : List Chan) (arms : List SelectArm) (allClosed : Bool) :
    List Nat → TryRes
  | [] => if allClosed then .allClosed else .notReady
  | si :: rest =>
    let arm := arms.getD si default
    let ch := store.getD arm.chanIdx default
    if arm.isSend then
      match chanSend ch arm.value with
      | .ok ch2 => .fired si (store.set arm.chanIdx ch2) none
      | _ => selectTryArms store arms (allClosed && ch.closed) rest
    else
      match chanRecv ch with
      | .ok v ch2 => .fired si (store.set arm.chanIdx ch2) (some v)
      | _ => selectTryArms store arms (allClosed && ch.closed) rest

/-- Outcome of one pass of `__pluto_select`: arm `i` completed (C returns
`i`), the default case was taken (C returns -1), every arm's channel was
closed with no default (C raises "channel closed" and returns -2), or the
fiber blocks and retries. -/
inductive SelectRes where
  | completed (i : Nat) (store : List Chan) (recvVal : Option Int)
  | defaulted
  | raisedClosed
  | wouldBlock
deriving Repr, DecidableEq

/-- Embedding of the decision chain of `__pluto_select` (threading.c:1543):
`if (result >= 0) return result; if (has_default) return -1;
if (result == -2) raise "channel closed";` otherwise block and retry.
`order` is the Fisher-Yates-shuffled arm order, quantified over all
permutations since the shuffle is seeded from ambient entropy. -/
def plutoSelect (store : List Chan) (arms : List SelectArm) (hasDefault : Bool)
    (order : List Nat) : SelectRes :=
  match selectTryArms store arms true order with
  | .fired i st v => .completed i st v
  | .notReady => if hasDefault then .defaulted else .wouldBlock
  | .allClosed => if hasDefault then .defaulted else .raisedClosed

/-! ## Exhaustive explorer backtracking (claim C7) -/

/-- One yield point of a recorded schedule trace: the fiber chosen there
(`choices[i]`) and the full ready set recorded there (`ready[i][0..rc)`). -/
structure YieldPoint where
  chosen : Nat
  ready : List Nat
deriving Repr, DecidableEq

instance : Inhabited YieldPoint := ⟨{ chosen := 0, ready := [] }⟩

/-- The inner loop of `exhaustive_find_backtrack` (threading.c:206) at one
yield point: skip if the ready set has at most one entry; find the
position of the chosen fiber in the ready set (`List.indexOf` returns the
length when absent, which the following bound check rejects exactly as
the C `pos < 0` test does); skip if no entries follow it; otherwise return
the first later entry not pruned by DPOR, i.e. not (`dep_valid` and
recorded as independent in the dependency matrix `dm`). -/
def viableAlt (dv : Bool) (dm : Nat → Nat → Bool) (yp : YieldPoint) : Option Nat :=
  let rc := yp.ready.length
  if rc ≤ 1 then none
  else
    let pos := yp.ready.indexOf yp.chosen
    if rc - 1 ≤ pos then none
    else (yp.ready.drop (pos + 1)).find? (fun alt => !(dv && !(dm yp.chosen alt)))

/-- Backward walk of `exhaustive_find_backtrack` over the reversed trace:
the head of the reversed list is the deepest yield point.  Returns the
original index of the yield point together with the alternative fiber
chosen there (the C code then replays `choices[0..i)` and forces `alt`). -/
def findBacktrackRev (dv : Bool) (dm : Nat → Nat → Bool) :
    List YieldPoint → Option (Nat × Nat)
  | [] => none
  | yp :: rest =>
    match viableAlt dv dm yp with
    | some alt => some (rest.length, alt)
    | none => findBacktrackRev dv dm rest

/-- Embedding of `exhaustive_find_backtrack` (threading.c:206): walk the
trace backward from the deepest yield point (`for i = depth-1 downto 0`)
and return the first yield point with a viable unexplored alternative;
`none` models the C return value 0 ("all schedules explored"). -/
def findBacktrack (dv : Bool) (dm : Nat → Nat → Bool) (tr : List YieldPoint) :
    Option (Nat × Nat) :=
  findBacktrackRev dv dm tr.reverse

/-- Declarative reading of a viable backtrack alternative at a yield
point: a position `j` in the recorded ready set strictly after the first
occurrence of the chosen fiber, whose fiber is not provably independent
of the chosen one (either no dependency information exists yet, or the
persistent matrix records the pair as dependent). -/
def IsViable (dv : Bool) (dm : Nat → Nat → Bool) (yp : YieldPoint) (j : Nat) : Prop :=
  j < yp.ready.length ∧ yp.ready.indexOf yp.chosen < j ∧
    (dv = false ∨ dm yp.chosen (yp.ready.getD j 0) = true)

instance (dv : Bool) (dm : Nat → Nat → Bool) (yp : YieldPoint) (j : Nat) :
    Decidable (IsViable dv dm yp j) := by
  unfold IsViable; infer_instance

/-- Embedding of `exhaustive_update_dep_matrix` (threading.c:185): after a
schedule, two distinct fibers below the fiber count become dependent if
their per-schedule channel-access lists share a channel; already-recorded
dependencies persist. -/
def updateDepMatrix (fiberChannels : Nat → List Nat) (fiberCount : Nat)
    (dm : Nat → Nat → Bool) : Nat → Nat → Bool :=
  fun a b =>
    dm a b ||
      (decide (a < fiberCount) && decide (b < fiberCount) && decide (a ≠ b) &&
        (fiberChannels a).any (fun c => c ∈ fiberChannels b))

/-! ## Mark-sweep collection (claims C1 and C9)

The heap is abstracted at the granularity the claims speak at: headers
are identified by numeric ids; `children h` is the list of header ids
that `gc_trace_object` marks when tracing `h` (the per-tag dispatch plus
the `gc_find_object`/`gc_find_array_owner` interval classification of
each scanned slot, in slot order); `roots` is the list of header ids hit
by `gc_mark_candidate` while scanning the declared roots (saved
registers, the stacks, and the current-error slot), in scan order.  The
mark state is the set of headers whose `mark` flag is set together with
the contents of `gc_worklist` in push order. -/

/-- Embedding of the mark-if-unmarked-then-push step shared by
`gc_mark_candidate` and `gc_trace_object` (both funnel through
`gc_mark_object`, marksweep.c:432, which sets the mark flag and calls
`gc_worklist_push`, marksweep.c:424, appending at the end). -/
def pushNew (st : Finset Nat × List Nat) (c : Nat) : Finset Nat × List Nat :=
  if c ∈ st.1 then st else (insert c st.1, st.2 ++ [c])

/-- Root marking: `gc_mark_candidate` applied to each root hit in scan
order, starting from cleared mark flags and an empty worklist. -/
def markRoots (roots : List Nat) : Finset Nat × List Nat :=
  roots.foldl pushNew (∅, [])

/-- Embedding of the worklist drain of `__pluto_gc_collect`
(marksweep.c:677): `while (count > 0) { obj = gc_worklist[--count];
gc_trace_object(obj); }` — each iteration removes the MOST RECENTLY
pushed entry and appends the traced object's unmarked children.  The
recursion is fuel-indexed because the C loop has no structural bound; the
second component records the sequence of objects traced, in order. -/
def drain (children : Nat → List Nat) : Nat → Finset Nat → List Nat → Finset Nat × List Nat
  | 0, m, _ => (m, [])
  | fuel + 1, m, ws =>
    match ws.getLast? with
    | none => (m, [])
    | some obj =>
      let st := (children obj).foldl pushNew (m, ws.dropLast)
      let r := drain children fuel st.1 st.2
      (r.1, obj :: r.2)

/-- Modelled from the spec: the drain loop as the spec describes it —
"objects are traced from the explicit worklist in first-in-first-out
order (each newly marked object is enqueued and objects are dequeued in
the order they were pushed)".  Identical to `drain` except that each
iteration removes the OLDEST entry of the worklist.  Used only to compare
the specified traversal order with the implemented one. -/
def drainFifo (children : Nat → List Nat) : Nat → Finset Nat → List Nat → Finset Nat × List Nat
  | 0, m, _ => (m, [])
  | fuel + 1, m, ws =>
    match ws with
    | [] => (m, [])
    | obj :: rest =>
      let st := (children obj).foldl pushNew (m, rest)
      let r := drainFifo children fuel st.1 st.2
      (r.1, obj :: r.2)

/-- The mark-if-unmarked step with the worklist represented top-first
(push at the front). -/
def pushNewFront (st : Finset Nat × List Nat) (c : Nat) : Finset Nat × List Nat :=
  if c ∈ st.1 then st else (insert c st.1, c :: st.2)

/-- The drain loop on a top-first stack: pop the head, push unmarked
children at the front.  `drain` is proved equal to this on the reversed
worklist, which is what makes the implemented order last-in-first-out. -/
def drainStack (children : Nat → List Nat) : Nat → Finset Nat → List Nat → Finset Nat × List Nat
  | 0, m, _ => (m, [])
  | fuel + 1, m, stack =>
    match stack with
    | [] => (m, [])
    | obj :: rest =>
      let st := (children obj).foldl pushNewFront (m, rest)
      let r := drainStack children fuel st.1 st.2
      (r.1, obj :: r.2)

/-- Embedding of a full `__pluto_gc_collect` (marksweep.c:571) at the
header-graph level: mark every root hit, drain the worklist, then sweep —
the sweep loop (marksweep.c:683) walks the allocation list once and
unlinks exactly the unmarked headers, so the surviving list is the
filtered one. -/
def gcCollect (children : Nat → List Nat) (fuel : Nat)
    (allocList roots : List Nat) : List Nat :=
  let r0 := markRoots roots
  let mf := (drain children fuel r0.1 r0.2).1
  allocList.filter (fun h => decide (h ∈ mf))

/-- Header `b` is transitively reachable from header `a` through the
tracing relation. -/
def Reaches (children : Nat → List Nat) (a b : Nat) : Prop :=
  Relation.ReflTransGen (fun x y => y ∈ children x) a b

/-- Concrete four-object heap used to compare the implemented drain order
with the specified FIFO order: object 0 points to 1 and 2, object 1
points to 3. -/
def exChildren : Nat → List Nat :=
  fun n => if n = 0 then [1, 2] else if n = 1 then [3] else []

/-- The channel state after sending 42 on a fresh capacity-1 channel;
used by a concrete select witness. -/
def exSentChan : Chan :=
  { buf := [42], cap := 1, count := 1, head := 0, tail := 0,
    closed := false, senderCount := 1 }

/-- A concrete two-entry schedule trace: at the first yield point fiber 0
was chosen out of ready set {0, 1}; at the second (deepest) yield point
only fiber 1 was ready.  Used by a concrete backtracking witness. -/
def exTrace : List YieldPoint :=
  [{ chosen := 0, ready := [0, 1] }, { chosen := 1, ready := [1] }]

/-- An empty dependency matrix (no pair has ever shared a channel). -/
def exDepMatrix : Nat → Nat → Bool := fun _ _ => false

/-! ## Claim C8: allocation threshold policy -/

/-- C8: after every collection the allocation threshold equals twice the
surviving accounted byte count, floored at the fixed minimum of 256 KiB —
that is, `max (2 * surviving) 262144`. -/
theorem gc_threshold_policy (surviving : Nat) :
    gcNewThreshold surviving = max (2 * surviving) 262144 := by
  unfold gcNewThreshold
  rcases Nat.lt_or_ge (surviving * 2) (256 * 1024) with h | h
  · rw [if_pos h]; omega
  · rw [if_neg (by omega)]; omega

/-! ## Claim C10: channel creation capacity -/

/-- C10: `__pluto_chan_create` stores capacity `c` when `c > 0` and
capacity 1 when `c <= 0`; in particular every constructed channel has
capacity at least 1, so a capacity-zero channel can never be built. -/
theorem chan_create_capacity (c : Int) :
    (chanCreate c).cap = (if c > 0 then c else 1) ∧ 1 ≤ (chanCreate c).cap := by
  have hcap : (chanCreate c).cap = (if c > 0 then c else 1) := rfl
  refine ⟨hcap, ?_⟩
  rw [hcap]
  by_cases h : c > 0
  · rw [if_pos h]; omega
  · rw [if_neg h]

/-! ## Claim C3: task_get and cancellation -/

/-- C3 counterexample: a task that was cancelled but nevertheless ran to
completion and produced the result value 0 (slots: result 0, error 0,
done, cancelled).  The claim says `get` returns the result 0 and never
raises cancellation; `__pluto_task_get` checks `task[6] && !task[1] &&
!task[2]`, cannot distinguish the stored result 0 from "no result", and
raises the cancellation error. -/
theorem task_get_counterexample :
    taskGet { result := 0, error := 0, done := true, cancelled := true } = .cancelledErr ∧
      taskGet { result := 0, error := 0, done := true, cancelled := true } ≠ .value 0 := by
  decide

/-- C3 amended: `__pluto_task_get` raises the cancellation error exactly
when the cancelled flag is set and both the result slot and the error
slot are zero — so a cancelled task that never completed raises
cancellation, and so does a cancelled task that completed with the result
value 0, because a stored result of 0 is indistinguishable from no
result.  In every other case the completed task's stored error is
re-raised or its (nonzero, or uncancelled) result is returned. -/
theorem task_get_amended (res err : Int) :
    taskGet (taskCancel taskNew) = .cancelledErr ∧
    (err = 0 → taskGet (taskFinish taskNew res err) = .value res) ∧
    (err ≠ 0 → taskGet (taskFinish taskNew res err) = .errorRaised err) ∧
    (err ≠ 0 → taskGet (taskCancel (taskFinish taskNew res err)) = .errorRaised err) ∧
    (err = 0 → res ≠ 0 → taskGet (taskCancel (taskFinish taskNew res err)) = .value res) ∧
    taskGet (taskCancel (taskFinish taskNew 0 0)) = .cancelledErr ∧
    (∀ t : Task, taskGet t = .cancelledErr ↔
      t.cancelled = true ∧ t.result = 0 ∧ t.error = 0) := by
  refine ⟨by decide, ?_, ?_, ?_, ?_, by decide, ?_⟩
  · intro h
    subst h
    simp only [taskFinish, taskNew, taskGet, taskCancel]
    by_cases hr : res = 0 <;> simp [hr]
  · intro h
    simp only [taskFinish, taskNew, taskGet, if_pos h]
    simp [h]
  · intro h
    simp only [taskFinish, taskNew, taskGet, taskCancel, if_pos h]
    simp [h]
  · intro h hr
    subst h
    simp only [taskFinish, taskNew, taskGet, taskCancel]
    simp [hr]
  · intro t
    unfold taskGet
    constructor
    · intro h
      by_cases hc : t.cancelled = true ∧ t.result = 0 ∧ t.error = 0
      · exact hc
      · exfalso
        rw [if_neg hc] at h
        by_cases hd : t.done = false
        · rw [if_pos hd] at h; simp at h
        · rw [if_neg hd] at h
          by_cases he : t.error ≠ 0
          · rw [if_pos he] at h; simp at h
          · rw [if_neg he] at h; simp at h
    · intro hc
      simp [hc]

/-- C3 amended, witness: instantiated at result 7 and error object 3. -/
theorem task_get_amended_witness :
    taskGet (taskFinish taskNew 7 0) = .value 7 ∧
      taskGet (taskCancel (taskFinish taskNew 7 0)) = .value 7 ∧
      taskGet (taskFinish taskNew 7 3) = .errorRaised 3 := by
  refine ⟨(task_get_amended 7 0).2.1 rfl, ?_, ?_⟩
  · exact (task_get_amended 7 0).2.2.2.2.1 rfl (by decide)
  · exact (task_get_amended 7 3).2.2.1 (by decide)

/-! ## Claim C2: channel conservation -/

/-- A completed send requires free space and increments the count by one;
any other send attempt leaves the channel unchanged. -/
theorem chanStep_send_spec (ch : Chan) (v : Int) :
    (ch.closed = false ∧ ch.count < ch.cap ∧
       (chanStep ch (.send v)).2 = true ∧
       (chanStep ch (.send v)).1.count = ch.count + 1 ∧
       (chanStep ch (.send v)).1.cap = ch.cap) ∨
    ((chanStep ch (.send v)).2 = false ∧ (chanStep ch (.send v)).1 = ch) := by
  unfold chanStep chanSend
  by_cases hc : ch.closed
  · right; simp [hc]
  · by_cases hsp : ch.count < ch.cap
    · left; simp [hc, hsp]
    · right; simp [hc, hsp]

/-- A completed recv requires a nonempty buffer and decrements the count
by one; any other recv attempt leaves the channel unchanged. -/
theorem chanStep_recv_spec (ch : Chan) :
    (0 < ch.count ∧
       (chanStep ch .recv).2 = true ∧
       (chanStep ch .recv).1.count = ch.count - 1 ∧
       (chanStep ch .recv).1.cap = ch.cap) ∨
    ((chanStep ch .recv).2 = false ∧ (chanStep ch .recv).1 = ch) := by
  unfold chanStep chanRecv
  by_cases hn : 0 < ch.count
  · left; simp [hn]
  · by_cases hc : ch.closed
    · right; simp [hn, hc]
    · right; simp [hn, hc]

/-- Unfolding of `chanRunCount` on a leading send. -/
theorem chanRunCount_cons_send (ch : Chan) (v : Int) (rest : List ChanAct) :
    chanRunCount ch (.send v :: rest) =
      ((chanRunCount (chanStep ch (.send v)).1 rest).1,
       (chanRunCount (chanStep ch (.send v)).1 rest).2.1 +
         (if (chanStep ch (.send v)).2 then 1 else 0),
       (chanRunCount (chanStep ch (.send v)).1 rest).2.2) := rfl

/-- Unfolding of `chanRunCount` on a leading recv. -/
theorem chanRunCount_cons_recv (ch : Chan) (rest : List ChanAct) :
    chanRunCount ch (.recv :: rest) =
      ((chanRunCount (chanStep ch .recv).1 rest).1,
       (chanRunCount (chanStep ch .recv).1 rest).2.1,
       (chanRunCount (chanStep ch .recv).1 rest).2.2 +
         (if (chanStep ch .recv).2 then 1 else 0)) := rfl

/-- Invariant of a send/recv trace: the count stays within the (constant)
capacity and equals the initial count plus completed sends minus
completed receives. -/
theorem chanRunCount_inv (acts : List ChanAct) : ∀ ch : Chan,
    0 ≤ ch.count → ch.count ≤ ch.cap →
    0 ≤ (chanRunCount ch acts).1.count ∧
    (chanRunCount ch acts).1.count ≤ (chanRunCount ch acts).1.cap ∧
    (chanRunCount ch acts).1.cap = ch.cap ∧
    (chanRunCount ch acts).1.count =
      ch.count + ((chanRunCount ch acts).2.1 : Int) - ((chanRunCount ch acts).2.2 : Int) := by
  induction acts with
  | nil =>
    intro ch h0 h1
    exact ⟨h0, h1, rfl, by simp [chanRunCount]⟩
  | cons a rest ih =>
    intro ch h0 h1
    cases a with
    | send v =>
      rw [chanRunCount_cons_send]
      have hrec := fun (h0x : 0 ≤ (chanStep ch (.send v)).1.count)
          (h1x : (chanStep ch (.send v)).1.count ≤ (chanStep ch (.send v)).1.cap) =>
        ih (chanStep ch (.send v)).1 h0x h1x
      rcases chanStep_send_spec ch v with ⟨_, hlt, hdone, hcnt, hcap⟩ | ⟨hdone, heq⟩
      · have hx := hrec (by omega) (by omega)
        rw [hdone]
        refine ⟨hx.1, hx.2.1, by rw [hx.2.2.1, hcap], ?_⟩
        have h4 := hx.2.2.2
        simp only [if_true]
        push_cast
        omega
      · have hx := hrec (by rw [heq]; exact h0) (by rw [heq]; exact h1)
        rw [hdone]
        refine ⟨hx.1, hx.2.1, by rw [hx.2.2.1, heq], ?_⟩
        have h4 := hx.2.2.2
        rw [heq] at h4
        rw [heq]
        simp only [Bool.false_eq_true, if_false]
        push_cast
        omega
    | recv =>
      rw [chanRunCount_cons_recv]
      have hrec := fun (h0x : 0 ≤ (chanStep ch .recv).1.count)
          (h1x : (chanStep ch .recv).1.count ≤ (chanStep ch .recv).1.cap) =>
        ih (chanStep ch .recv).1 h0x h1x
      rcases chanStep_recv_spec ch with ⟨hpos, hdone, hcnt, hcap⟩ | ⟨hdone, heq⟩
      · have hx := hrec (by omega) (by omega)
        rw [hdone]
        refine ⟨hx.1, hx.2.1, by rw [hx.2.2.1, hcap], ?_⟩
        have h4 := hx.2.2.2
        simp only [if_true]
        push_cast
        omega
      · have hx := hrec (by rw [heq]; exact h0) (by rw [heq]; exact h1)
        rw [hdone]
        refine ⟨hx.1, hx.2.1, by rw [hx.2.2.1, heq], ?_⟩
        have h4 := hx.2.2.2
        rw [heq] at h4
        rw [heq]
        simp only [Bool.false_eq_true, if_false]
        push_cast
        omega

/-- C2: along every sequence of send and recv attempts on a channel
created with capacity `C` (no close), the count field satisfies
`0 <= count <= capacity` — each completed send increments it only when
`count < capacity` and each completed recv decrements it only when
`count > 0` — and the number of completed receives never exceeds the
number of completed sends.  (The final state of an arbitrary action list
covers every intermediate state, since every prefix is itself an action
list.) -/
theorem chan_conservation (C : Int) (acts : List ChanAct) :
    0 ≤ (chanRunCount (chanCreate C) acts).1.count ∧
    (chanRunCount (chanCreate C) acts).1.count ≤ (chanRunCount (chanCreate C) acts).1.cap ∧
    (chanRunCount (chanCreate C) acts).2.2 ≤ (chanRunCount (chanCreate C) acts).2.1 ∧
    (∀ (ch : Chan) (v : Int), (chanStep ch (.send v)).2 = true →
       ch.count < ch.cap ∧ (chanStep ch (.send v)).1.count = ch.count + 1) ∧
    (∀ ch : Chan, (chanStep ch .recv).2 = true →
       0 < ch.count ∧ (chanStep ch .recv).1.count = ch.count - 1) := by
  have hinv := chanRunCount_inv acts (chanCreate C) (by simp [chanCreate]) (by
    simp only [chanCreate]
    by_cases h : C > 0
    · rw [if_pos h]; omega
    · rw [if_neg h]; omega)
  refine ⟨hinv.1, hinv.2.1, ?_, ?_, ?_⟩
  · have h4 := hinv.2.2.2
    have h1 := hinv.1
    have hc0 : (chanCreate C).count = 0 := rfl
    rw [hc0] at h4
    omega
  · intro ch v hdone
    rcases chanStep_send_spec ch v with ⟨_, hlt, _, hcnt, _⟩ | ⟨hfalse, _⟩
    · exact ⟨hlt, hcnt⟩
    · rw [hdone] at hfalse; cases hfalse
  · intro ch hdone
    rcases chanStep_recv_spec ch with ⟨hpos, _, hcnt, _⟩ | ⟨hfalse, _⟩
    · exact ⟨hpos, hcnt⟩
    · rw [hdone] at hfalse; cases hfalse

/-- C2 witness: capacity 2, one completed send, one completed recv, one
blocked recv. -/
theorem chan_conservation_witness :
    0 ≤ (chanRunCount (chanCreate 2) [ChanAct.send 5, ChanAct.recv, ChanAct.recv]).1.count ∧
      (chanRunCount (chanCreate 2) [ChanAct.send 5, ChanAct.recv, ChanAct.recv]).2.2 ≤
        (chanRunCount (chanCreate 2) [ChanAct.send 5, ChanAct.recv, ChanAct.recv]).2.1 := by
  have h := chan_conservation 2 [ChanAct.send 5, ChanAct.recv, ChanAct.recv]
  exact ⟨h.1, h.2.2.1⟩

/-! ## Claim C5: sender reference counting -/

/-- One sender-count call preserves nonnegativity of the count. -/
theorem senderStep_nonneg (ch : Chan) (a : SenderAct) (h : 0 ≤ ch.senderCount) :
    0 ≤ (senderStep ch a).senderCount := by
  cases a with
  | inc => simp only [senderStep, chanSenderInc]; omega
  | dec =>
    simp only [senderStep, chanSenderDec]
    by_cases h0 : ch.senderCount ≤ 0
    · rw [if_pos h0]; exact h
    · rw [if_neg h0]
      by_cases h1 : ch.senderCount = 1
      · rw [if_pos h1]; simp [chanClose]; omega
      · rw [if_neg h1]; simp; omega

/-- One sender-count call never resets the closed flag. -/
theorem senderStep_closed_mono (ch : Chan) (a : SenderAct) (h : ch.closed = true) :
    (senderStep ch a).closed = true := by
  cases a with
  | inc => simpa [senderStep, chanSenderInc] using h
  | dec =>
    simp only [senderStep, chanSenderDec]
    by_cases h0 : ch.senderCount ≤ 0
    · rw [if_pos h0]; exact h
    · rw [if_neg h0]
      by_cases h1 : ch.senderCount = 1
      · rw [if_pos h1]; simp [chanClose]
      · rw [if_neg h1]; exact h

/-- The closed flag transitions false-to-true only at a dec that moves the
sender count from 1 to 0. -/
theorem senderStep_close_char (ch : Chan) (a : SenderAct) (h : ch.closed = false)
    (h2 : (senderStep ch a).closed = true) :
    a = .dec ∧ ch.senderCount = 1 ∧ (senderStep ch a).senderCount = 0 := by
  cases a with
  | inc => simp only [senderStep, chanSenderInc] at h2; rw [h] at h2; cases h2
  | dec =>
    simp only [senderStep, chanSenderDec] at h2 ⊢
    by_cases h0 : ch.senderCount ≤ 0
    · rw [if_pos h0] at h2; rw [h] at h2; cases h2
    · rw [if_neg h0] at h2 ⊢
      by_cases h1 : ch.senderCount = 1
      · rw [if_pos h1]; exact ⟨by trivial, h1, by simp [chanClose, h1]⟩
      · rw [if_neg h1] at h2; simp at h2; rw [h] at h2; cases h2

/-- A run starting from a closed channel stays closed and records no
close transitions. -/
theorem senderRun_closed (acts : List SenderAct) : ∀ ch : Chan, ch.closed = true →
    (senderRun ch acts).closed = true ∧ closeTransitions ch acts = 0 := by
  induction acts with
  | nil => intro ch h; exact ⟨h, rfl⟩
  | cons a rest ih =>
    intro ch h
    have hstep := senderStep_closed_mono ch a h
    have hx := ih (senderStep ch a) hstep
    constructor
    · simpa [senderRun] using hx.1
    · simp only [closeTransitions, h]
      rw [hx.2]
      simp

/-- A run starting from an open channel records exactly one close
transition when it ends closed, zero otherwise. -/
theorem senderRun_transitions (acts : List SenderAct) : ∀ ch : Chan, ch.closed = false →
    closeTransitions ch acts = (if (senderRun ch acts).closed then 1 else 0) := by
  induction acts with
  | nil => intro ch h; simp [closeTransitions, senderRun, h]
  | cons a rest ih =>
    intro ch h
    by_cases h2 : (senderStep ch a).closed = true
    · have hx := senderRun_closed rest (senderStep ch a) h2
      simp only [closeTransitions, h, h2]
      rw [hx.2]
      have : (senderRun ch (a :: rest)).closed = true := by
        simpa [senderRun] using hx.1
      simp [this]
    · have h2f : (senderStep ch a).closed = false := by
        cases hc : (senderStep ch a).closed
        · rfl
        · exact absurd hc h2
      have hx := ih (senderStep ch a) h2f
      simp only [closeTransitions, h, h2f]
      rw [hx]
      simp [senderRun]

/-- Nonnegativity of the sender count along a whole run. -/
theorem senderRun_nonneg (acts : List SenderAct) : ∀ ch : Chan, 0 ≤ ch.senderCount →
    0 ≤ (senderRun ch acts).senderCount := by
  induction acts with
  | nil => intro ch h; exact h
  | cons a rest ih =>
    intro ch h
    have := ih (senderStep ch a) (senderStep_nonneg ch a h)
    simpa [senderRun] using this

/-- C5: on a freshly created channel (sender count 1, open), any sequence
of `sender_inc`/`sender_dec` calls keeps the sender count nonnegative; a
dec observing a count of zero or less restores the count and does nothing
else (it is the identity); the closed flag is never reset; it transitions
from false to true only at a dec that moves the count from 1 to 0; and
the whole run performs that transition exactly once when it ends closed
(zero times otherwise), so the channel is closed exactly once. -/
theorem chan_sender_refcount (C : Int) (acts : List SenderAct) :
    0 ≤ (senderRun (chanCreate C) acts).senderCount ∧
    (∀ ch : Chan, ch.senderCount ≤ 0 → chanSenderDec ch = ch) ∧
    (∀ (ch : Chan) (a : SenderAct), ch.closed = false → (senderStep ch a).closed = true →
       a = .dec ∧ ch.senderCount = 1 ∧ (senderStep ch a).senderCount = 0) ∧
    (∀ (ch : Chan) (a : SenderAct), ch.closed = true → (senderStep ch a).closed = true) ∧
    closeTransitions (chanCreate C) acts =
      (if (senderRun (chanCreate C) acts).closed then 1 else 0) := by
  refine ⟨?_, ?_, senderStep_close_char, senderStep_closed_mono, ?_⟩
  · exact senderRun_nonneg acts (chanCreate C) (by simp [chanCreate])
  · intro ch h
    simp [chanSenderDec, h]
  · exact senderRun_transitions acts (chanCreate C) rfl

/-- C5 witness: two decs from the initial count 1 — the first closes the
channel (count 1 to 0), the second hits the underflow guard; exactly one
close transition is recorded. -/
theorem chan_sender_refcount_witness :
    0 ≤ (senderRun (chanCreate 1) [SenderAct.dec, SenderAct.dec]).senderCount ∧
      closeTransitions (chanCreate 1) [SenderAct.dec, SenderAct.dec] = 1 := by
  have h := chan_sender_refcount 1 [SenderAct.dec, SenderAct.dec]
  refine ⟨h.1, ?_⟩
  rw [h.2.2.2.2]
  decide

/-! ## Claim C4: operations on a closed channel -/

/-- C4: on a channel whose closed flag is set (with the structural
invariant every reachable channel satisfies: the head index lies inside
the buffer): every send raises "channel closed" and leaves the channel
untouched; a recv with a nonempty buffer still returns the value at the
front of the FIFO queue and leaves exactly the rest of the queue (still
closed); and a recv raises "channel closed" exactly when the buffer is
empty. -/
theorem chan_closed_semantics (ch : Chan)
    (hclosed : ch.closed = true)
    (hhead0 : 0 ≤ ch.head) (hheadlt : ch.head < ch.cap) :
    (∀ v, chanSend ch v = SendRes.closedErr) ∧
    (ch.count = 0 → chanRecv ch = RecvRes.closedErr) ∧
    (0 < ch.count → ∃ ch2,
       chanRecv ch = RecvRes.ok ((chanQueue ch).headI) ch2 ∧
       chanQueue ch2 = (chanQueue ch).tail ∧
       ch2.closed = true ∧ ch2.count = ch.count - 1) := by
  refine ⟨?_, ?_, ?_⟩
  · intro v
    simp [chanSend, hclosed]
  · intro h0
    simp [chanRecv, h0, hclosed]
  · intro hpos
    have hrecv : chanRecv ch = RecvRes.ok (bufGet ch.buf ch.head)
        { ch with head := (ch.head + 1) % ch.cap, count := ch.count - 1 } := by
      simp [chanRecv, hpos]
    have hct : ch.count.toNat = (ch.count.toNat - 1) + 1 := by omega
    have hq : chanQueue ch = bufGet ch.buf ch.head ::
        (List.range (ch.count.toNat - 1)).map
          (fun (i : Nat) => bufGet ch.buf ((ch.head + ((i : Int) + 1)) % ch.cap)) := by
      rw [chanQueue, hct, List.range_succ_eq_map, List.map_cons, List.map_map]
      congr 1
      rw [Nat.cast_zero, add_zero, Int.emod_eq_of_lt hhead0 hheadlt]
    refine ⟨{ ch with head := (ch.head + 1) % ch.cap, count := ch.count - 1 },
      ?_, ?_, hclosed, rfl⟩
    · rw [hrecv, hq]
      rfl
    · rw [hq]
      show chanQueue _ = _
      rw [chanQueue]
      have hct2 : (ch.count - 1).toNat = ch.count.toNat - 1 := by omega
      simp only [hct2, List.tail_cons]
      apply List.map_congr_left
      intro i _
      show bufGet ch.buf (((ch.head + 1) % ch.cap + (i : Int)) % ch.cap) = _
      rw [Int.emod_add_emod]
      congr 1
      ring_nf

/-- C4 witness: a closed capacity-2 channel holding the queue [5, 7]. -/
theorem chan_closed_semantics_witness :
    chanSend { buf := [5, 7], cap := 2, count := 2, head := 0, tail := 0,
               closed := true, senderCount := 1 } 9 = SendRes.closedErr ∧
    ∃ ch2, chanRecv { buf := [5, 7], cap := 2, count := 2, head := 0, tail := 0,
                      closed := true, senderCount := 1 } = RecvRes.ok 5 ch2 ∧
      chanQueue ch2 = [7] := by
  obtain ⟨hs, _, hrp⟩ := chan_closed_semantics
    { buf := [5, 7], cap := 2, count := 2, head := 0, tail := 0,
      closed := true, senderCount := 1 }
    rfl (by decide) (by decide)
  obtain ⟨ch2, h1, h2, _, _⟩ := hrp (by decide)
  refine ⟨hs 9, ch2, ?_, ?_⟩
  · rw [h1]
    congr 1
  · rw [h2]
    decide

/-! ## Claim C6: select -/

/-- Reading an unmodified position of a store after a single-channel
update. -/
theorem getD_set_ne (l : List Chan) (idx j : Nat) (x : Chan) (h : j ≠ idx) :
    (l.set idx x).getD j default = l.getD j default := by
  rw [List.getD_eq_getElem?_getD, List.getD_eq_getElem?_getD,
    List.getElem?_set_ne (Ne.symm h)]

/-- A send on a channel that is open with free space succeeds. -/
theorem chanSend_ok_of_ready (ch : Chan) (v : Int)
    (h : (!ch.closed && decide (ch.count < ch.cap)) = true) :
    ∃ ch2, chanSend ch v = SendRes.ok ch2 := by
  simp only [Bool.and_eq_true, Bool.not_eq_true', decide_eq_true_eq] at h
  refine ⟨{ ch with buf := bufSet ch.buf ch.tail v, tail := (ch.tail + 1) % ch.cap, count := ch.count + 1 }, ?_⟩
  rw [chanSend, if_neg (by simp [h.1]), if_pos h.2]

/-- A send on a closed or full channel does not complete. -/
theorem chanSend_not_ok (ch : Chan) (v : Int)
    (h : (!ch.closed && decide (ch.count < ch.cap)) = false) :
    chanSend ch v = SendRes.closedErr ∨ chanSend ch v = SendRes.blocked := by
  by_cases hc : ch.closed
  · left; simp [chanSend, hc]
  · right
    simp only [Bool.and_eq_false_iff, Bool.not_eq_false', decide_eq_false_iff_not] at h
    rcases h with h | h
    · exact absurd h (by simp [hc])
    · simp [chanSend, hc, h]

/-- A send completes only on an open channel with free space. -/
theorem chanSend_ok_ready (ch : Chan) (v : Int) (ch2 : Chan)
    (h : chanSend ch v = SendRes.ok ch2) :
    (!ch.closed && decide (ch.count < ch.cap)) = true := by
  by_cases hc : ch.closed
  · simp [chanSend, hc] at h
  · by_cases hs : ch.count < ch.cap
    · simp [hc, hs]
    · simp [chanSend, hc, hs] at h

/-- A recv on a nonempty buffer succeeds. -/
theorem chanRecv_ok_of_ready (ch : Chan) (h : decide (0 < ch.count) = true) :
    ∃ x ch2, chanRecv ch = RecvRes.ok x ch2 := by
  simp only [decide_eq_true_eq] at h
  refine ⟨bufGet ch.buf ch.head, { ch with head := (ch.head + 1) % ch.cap, count := ch.count - 1 }, ?_⟩
  rw [chanRecv, if_pos h]

/-- A recv on an empty buffer does not complete. -/
theorem chanRecv_not_ok (ch : Chan) (h : decide (0 < ch.count) = false) :
    chanRecv ch = RecvRes.closedErr ∨ chanRecv ch = RecvRes.blocked := by
  simp only [decide_eq_false_iff_not] at h
  by_cases hc : ch.closed
  · left; simp [chanRecv, h, hc]
  · right; simp [chanRecv, h, hc]

/-- A recv completes only on a nonempty buffer. -/
theorem chanRecv_ok_ready (ch : Chan) (x : Int) (ch2 : Chan)
    (h : chanRecv ch = RecvRes.ok x ch2) : decide (0 < ch.count) = true := by
  by_cases hn : 0 < ch.count
  · simp [hn]
  · by_cases hc : ch.closed
    · simp [chanRecv, hn, hc] at h
    · simp [chanRecv, hn, hc] at h

/-- When `select_try_arms` fires arm `i`, that arm was in the order, it
was ready, and the resulting store is the input store with exactly that
arm's operation performed on that arm's channel. -/
theorem selectTryArms_fired_spec (store : List Chan) (arms : List SelectArm) :
    ∀ (order : List Nat) (b : Bool) (i : Nat) (st : List Chan) (v : Option Int),
      selectTryArms store arms b order = .fired i st v →
      i ∈ order ∧
      ((arms.getD i default).isSend = true → v = none ∧ ∃ ch2,
         chanSend (store.getD (arms.getD i default).chanIdx default)
             (arms.getD i default).value = SendRes.ok ch2 ∧
           st = store.set (arms.getD i default).chanIdx ch2) ∧
      ((arms.getD i default).isSend = false → ∃ x ch2,
         chanRecv (store.getD (arms.getD i default).chanIdx default) = RecvRes.ok x ch2 ∧
           v = some x ∧ st = store.set (arms.getD i default).chanIdx ch2) := by
  intro order
  induction order with
  | nil =>
    intro b i st v h
    by_cases hb : b <;> simp [selectTryArms, hb] at h
  | cons si rest ih =>
    intro b i st v h
    simp only [selectTryArms] at h
    by_cases hsend : (arms.getD si default).isSend
    · rw [if_pos hsend] at h
      cases hE : chanSend (store.getD (arms.getD si default).chanIdx default)
          (arms.getD si default).value with
      | ok ch2 =>
        rw [hE] at h
        injection h with h1 h2 h3
        subst h1; subst h2; subst h3
        refine ⟨List.mem_cons_self _ _, fun _ => ⟨rfl, ch2, hE, rfl⟩, fun hns => ?_⟩
        rw [hsend] at hns; cases hns
      | closedErr =>
        rw [hE] at h
        have hx := ih _ _ _ _ h
        exact ⟨List.mem_cons_of_mem _ hx.1, hx.2.1, hx.2.2⟩
      | blocked =>
        rw [hE] at h
        have hx := ih _ _ _ _ h
        exact ⟨List.mem_cons_of_mem _ hx.1, hx.2.1, hx.2.2⟩
    · rw [if_neg hsend] at h
      cases hE : chanRecv (store.getD (arms.getD si default).chanIdx default) with
      | ok x ch2 =>
        rw [hE] at h
        injection h with h1 h2 h3
        subst h1; subst h2; subst h3
        refine ⟨List.mem_cons_self _ _, fun hs => ?_, fun _ => ⟨x, ch2, hE, rfl, rfl⟩⟩
        rw [hs] at hsend; exact absurd rfl hsend
      | closedErr =>
        rw [hE] at h
        have hx := ih _ _ _ _ h
        exact ⟨List.mem_cons_of_mem _ hx.1, hx.2.1, hx.2.2⟩
      | blocked =>
        rw [hE] at h
        have hx := ih _ _ _ _ h
        exact ⟨List.mem_cons_of_mem _ hx.1, hx.2.1, hx.2.2⟩

/-- When no arm in the order is ready, `select_try_arms` performs nothing
and reports `allClosed` exactly when the incoming flag stays set across
every arm's channel, i.e. when all those channels are closed. -/
theorem selectTryArms_none_spec (store : List Chan) (arms : List SelectArm) :
    ∀ (order : List Nat) (b : Bool),
      (∀ si ∈ order, armReady store (arms.getD si default) = false) →
      selectTryArms store arms b order =
        (if b && order.all
            (fun si => (store.getD (arms.getD si default).chanIdx default).closed)
          then TryRes.allClosed else TryRes.notReady) := by
  intro order
  induction order with
  | nil =>
    intro b _
    simp [selectTryArms]
  | cons si rest ih =>
    intro b hb
    have hsi := hb si (List.mem_cons_self _ _)
    have hrest := fun sj hj => hb sj (List.mem_cons_of_mem _ hj)
    simp only [selectTryArms]
    by_cases hsend : (arms.getD si default).isSend
    · rw [if_pos hsend]
      rw [armReady, if_pos hsend] at hsi
      rcases chanSend_not_ok _ (arms.getD si default).value hsi with hE | hE
      all_goals rw [hE, ih _ hrest, List.all_cons, ← Bool.and_assoc]
    · rw [if_neg hsend]
      rw [armReady, if_neg hsend] at hsi
      rcases chanRecv_not_ok _ hsi with hE | hE
      all_goals rw [hE, ih _ hrest, List.all_cons, ← Bool.and_assoc]

/-- When some arm in the order is ready, `select_try_arms` fires. -/
theorem selectTryArms_ready_fires (store : List Chan) (arms : List SelectArm) :
    ∀ (order : List Nat) (b : Bool),
      (∃ si ∈ order, armReady store (arms.getD si default) = true) →
      ∃ i st v, selectTryArms store arms b order = .fired i st v := by
  intro order
  induction order with
  | nil =>
    intro b h
    obtain ⟨si, hmem, _⟩ := h
    cases hmem
  | cons si rest ih =>
    intro b h
    simp only [selectTryArms]
    by_cases hsend : (arms.getD si default).isSend
    · rw [if_pos hsend]
      cases hE : chanSend (store.getD (arms.getD si default).chanIdx default)
          (arms.getD si default).value with
      | ok ch2 =>
        simp only [hE]
        exact ⟨si, _, none, rfl⟩
      | closedErr =>
        simp only [hE]
        apply ih
        obtain ⟨sj, hmem, hready⟩ := h
        rcases List.mem_cons.mp hmem with rfl | hj
        · rw [armReady, if_pos hsend] at hready
          obtain ⟨ch2, hok⟩ := chanSend_ok_of_ready _ (arms.getD sj default).value hready
          rw [hok] at hE; cases hE
        · exact ⟨sj, hj, hready⟩
      | blocked =>
        simp only [hE]
        apply ih
        obtain ⟨sj, hmem, hready⟩ := h
        rcases List.mem_cons.mp hmem with rfl | hj
        · rw [armReady, if_pos hsend] at hready
          obtain ⟨ch2, hok⟩ := chanSend_ok_of_ready _ (arms.getD sj default).value hready
          rw [hok] at hE; cases hE
        · exact ⟨sj, hj, hready⟩
    · rw [if_neg hsend]
      cases hE : chanRecv (store.getD (arms.getD si default).chanIdx default) with
      | ok x ch2 =>
        simp only [hE]
        exact ⟨si, _, some x, rfl⟩
      | closedErr =>
        simp only [hE]
        apply ih
        obtain ⟨sj, hmem, hready⟩ := h
        rcases List.mem_cons.mp hmem with rfl | hj
        · rw [armReady, if_neg hsend] at hready
          obtain ⟨x, ch2, hok⟩ := chanRecv_ok_of_ready _ hready
          rw [hok] at hE; cases hE
        · exact ⟨sj, hj, hready⟩
      | blocked =>
        simp only [hE]
        apply ih
        obtain ⟨sj, hmem, hready⟩ := h
        rcases List.mem_cons.mp hmem with rfl | hj
        · rw [armReady, if_neg hsend] at hready
          obtain ⟨x, ch2, hok⟩ := chanRecv_ok_of_ready _ hready
          rw [hok] at hE; cases hE
        · exact ⟨sj, hj, hready⟩

/-- C6: behaviour of one `__pluto_select` pass over any shuffled arm
order.  (1) If the try loop fires arm `i`, then `i` was among the arms,
it was ready in the incoming store, select returns `i`, every other
channel of the store is untouched, and the fired channel underwent
exactly its arm's send or recv.  (2) If some arm is ready, select
completes one arm.  (3) If no arm is ready: with a default case select
returns the sentinel (having performed no operation); with no default
and every arm's channel closed it raises "channel closed". -/
theorem select_semantics (store : List Chan) (arms : List SelectArm)
    (order : List Nat) (hasDefault : Bool) :
    (∀ (i : Nat) (st : List Chan) (v : Option Int),
       selectTryArms store arms true order = TryRes.fired i st v →
       i ∈ order ∧ armReady store (arms.getD i default) = true ∧
       plutoSelect store arms hasDefault order = SelectRes.completed i st v ∧
       (∀ j, j ≠ (arms.getD i default).chanIdx → st.getD j default = store.getD j default) ∧
       ((arms.getD i default).isSend = true → v = none ∧ ∃ ch2,
          chanSend (store.getD (arms.getD i default).chanIdx default)
              (arms.getD i default).value = SendRes.ok ch2 ∧
            st = store.set (arms.getD i default).chanIdx ch2) ∧
       ((arms.getD i default).isSend = false → ∃ x ch2,
          chanRecv (store.getD (arms.getD i default).chanIdx default) = RecvRes.ok x ch2 ∧
            v = some x ∧ st = store.set (arms.getD i default).chanIdx ch2)) ∧
    ((∃ si ∈ order, armReady store (arms.getD si default) = true) →
       ∃ i st v, plutoSelect store arms hasDefault order = SelectRes.completed i st v) ∧
    ((∀ si ∈ order, armReady store (arms.getD si default) = false) →
       (hasDefault = true → plutoSelect store arms hasDefault order = SelectRes.defaulted) ∧
       (hasDefault = false →
          (∀ si ∈ order, (store.getD (arms.getD si default).chanIdx default).closed = true) →
          plutoSelect store arms hasDefault order = SelectRes.raisedClosed)) := by
  refine ⟨?_, ?_, ?_⟩
  · intro i st v h
    have hx := selectTryArms_fired_spec store arms order true i st v h
    have hps : plutoSelect store arms hasDefault order = SelectRes.completed i st v := by
      rw [plutoSelect, h]
    have hready : armReady store (arms.getD i default) = true := by
      by_cases hsend : (arms.getD i default).isSend
      · obtain ⟨_, ch2, hok, _⟩ := hx.2.1 hsend
        rw [armReady, if_pos hsend]
        exact chanSend_ok_ready _ _ _ hok
      · obtain ⟨x, ch2, hok, _, _⟩ := hx.2.2 (by simpa using hsend)
        rw [armReady, if_neg hsend]
        exact chanRecv_ok_ready _ _ _ hok
    have huntouched : ∀ j, j ≠ (arms.getD i default).chanIdx →
        st.getD j default = store.getD j default := by
      intro j hj
      by_cases hsend : (arms.getD i default).isSend
      · obtain ⟨_, ch2, _, hst⟩ := hx.2.1 hsend
        rw [hst]
        exact getD_set_ne _ _ _ _ hj
      · obtain ⟨x, ch2, _, _, hst⟩ := hx.2.2 (by simpa using hsend)
        rw [hst]
        exact getD_set_ne _ _ _ _ hj
    exact ⟨hx.1, hready, hps, huntouched, hx.2.1, hx.2.2⟩
  · intro h
    obtain ⟨i, st, v, hE⟩ := selectTryArms_ready_fires store arms order true h
    exact ⟨i, st, v, by rw [plutoSelect, hE]⟩
  · intro hnone
    have hE := selectTryArms_none_spec store arms order true hnone
    constructor
    · intro hd
      rw [plutoSelect, hE]
      by_cases hall : order.all
          (fun si => (store.getD (arms.getD si default).chanIdx default).closed)
      · rw [Bool.true_and, if_pos hall]
        simp [hd]
      · rw [Bool.true_and,
          if_neg (by rw [Bool.not_eq_true] at hall; rw [hall]; simp)]
        simp [hd]
    · intro hd hclosed
      rw [plutoSelect, hE, Bool.true_and,
        if_pos (List.all_eq_true.mpr (fun si hsi => by
          simpa using hclosed si hsi))]
      simp [hd]

/-- C6 witness: a ready send arm on a fresh capacity-1 channel fires and
select returns its index with the pushed value in the store; a recv arm
on the same (empty) channel with a default case supplied returns the
sentinel. -/
theorem select_semantics_witness :
    plutoSelect [chanCreate 1] [{ chanIdx := 0, isSend := true, value := 42 }]
        false [0] = SelectRes.completed 0 [exSentChan] none ∧
    plutoSelect [chanCreate 1] [{ chanIdx := 0, isSend := false, value := 0 }]
        true [0] = SelectRes.defaulted := by
  constructor
  · have h := (select_semantics [chanCreate 1]
      [{ chanIdx := 0, isSend := true, value := 42 }] [0] false).1
    exact (h 0 [exSentChan] none (by decide)).2.2.1
  · have h := (select_semantics [chanCreate 1]
      [{ chanIdx := 0, isSend := false, value := 0 }] [0] true).2.2
    exact (h (by decide)).1 rfl

/-! ## Claim C7: exhaustive explorer backtracking -/

/-- The DPOR pruning test accepts an alternative exactly when it is not
provably independent: either no dependency information exists yet, or the
matrix marks the pair dependent. -/
theorem viable_cond_iff (dv : Bool) (dm : Nat → Nat → Bool) (c x : Nat) :
    ((!(dv && !(dm c x))) = true) ↔ (dv = false ∨ dm c x = true) := by
  cases dv <;> cases hdm : dm c x <;> simp [hdm]

/-- The per-yield-point scan returns no alternative exactly when no
position of the recorded ready set is a viable alternative. -/
theorem viableAlt_none_iff (dv : Bool) (dm : Nat → Nat → Bool) (yp : YieldPoint) :
    viableAlt dv dm yp = none ↔ ∀ j, ¬IsViable dv dm yp j := by
  unfold viableAlt
  by_cases h1 : yp.ready.length ≤ 1
  · rw [if_pos h1]
    simp only [true_iff]
    intro j hj
    obtain ⟨hj1, hj2, _⟩ := hj
    omega
  · rw [if_neg h1]
    by_cases h2 : yp.ready.length - 1 ≤ yp.ready.indexOf yp.chosen
    · rw [if_pos h2]
      simp only [true_iff]
      intro j hj
      obtain ⟨hj1, hj2, _⟩ := hj
      omega
    · rw [if_neg h2]
      constructor
      · intro hnone j hj
        obtain ⟨hj1, hj2, hj3⟩ := hj
        have hsome : yp.ready[j]? = some (yp.ready.getD j 0) := by
          rw [List.getD_eq_getElem?_getD, List.getElem?_eq_getElem hj1]
          rfl
        have hdropsome : (yp.ready.drop (yp.ready.indexOf yp.chosen + 1))[j -
            (yp.ready.indexOf yp.chosen + 1)]? = some (yp.ready.getD j 0) := by
          rw [List.getElem?_drop]
          have harith : yp.ready.indexOf yp.chosen + 1 +
              (j - (yp.ready.indexOf yp.chosen + 1)) = j := by omega
          rw [harith, hsome]
        have hx := List.getElem?_mem hdropsome
        have hfalse := List.find?_eq_none.mp hnone _ hx
        exact hfalse ((viable_cond_iff dv dm yp.chosen _).mpr hj3)
      · intro hall
        apply List.find?_eq_none.mpr
        intro x hxmem
        obtain ⟨idx, hidxlt, hidxeq⟩ := List.mem_iff_getElem.mp hxmem
        rw [List.getElem_drop] at hidxeq
        intro hp
        have hj1 : yp.ready.indexOf yp.chosen + 1 + idx < yp.ready.length := by
          rw [List.length_drop] at hidxlt; omega
        apply hall (yp.ready.indexOf yp.chosen + 1 + idx)
        refine ⟨hj1, by omega, ?_⟩
        rw [List.getD_eq_getElem?_getD, List.getElem?_eq_getElem hj1]
        simp only [Option.getD_some]
        rw [hidxeq]
        exact (viable_cond_iff dv dm yp.chosen x).mp hp

/-- When the per-yield-point scan returns an alternative, that fiber sits
at a viable position of the recorded ready set. -/
theorem viableAlt_some_spec (dv : Bool) (dm : Nat → Nat → Bool) (yp : YieldPoint)
    (alt : Nat) (h : viableAlt dv dm yp = some alt) :
    ∃ j, IsViable dv dm yp j ∧ yp.ready.getD j 0 = alt := by
  unfold viableAlt at h
  by_cases h1 : yp.ready.length ≤ 1
  · rw [if_pos h1] at h; cases h
  · rw [if_neg h1] at h
    by_cases h2 : yp.ready.length - 1 ≤ yp.ready.indexOf yp.chosen
    · rw [if_pos h2] at h; cases h
    · rw [if_neg h2] at h
      have hmem := List.mem_of_find?_eq_some h
      have hp := List.find?_some h
      obtain ⟨idx, hidxlt, hidxeq⟩ := List.mem_iff_getElem.mp hmem
      rw [List.getElem_drop] at hidxeq
      have hj1 : yp.ready.indexOf yp.chosen + 1 + idx < yp.ready.length := by
        rw [List.length_drop] at hidxlt; omega
      refine ⟨yp.ready.indexOf yp.chosen + 1 + idx, ⟨hj1, by omega, ?_⟩, ?_⟩
      · rw [List.getD_eq_getElem?_getD, List.getElem?_eq_getElem hj1]
        simp only [Option.getD_some]
        rw [hidxeq]
        exact (viable_cond_iff dv dm yp.chosen alt).mp hp
      · rw [List.getD_eq_getElem?_getD, List.getElem?_eq_getElem hj1]
        simp only [Option.getD_some]
        exact hidxeq

/-- The reversed walk reports exhaustion exactly when no yield point of
the list has a viable alternative. -/
theorem findBacktrackRev_none_iff (dv : Bool) (dm : Nat → Nat → Bool) :
    ∀ L : List YieldPoint, findBacktrackRev dv dm L = none ↔
      ∀ yp ∈ L, viableAlt dv dm yp = none := by
  intro L
  induction L with
  | nil => simp [findBacktrackRev]
  | cons yp rest ih =>
    simp only [findBacktrackRev]
    cases hv : viableAlt dv dm yp with
    | some a =>
      constructor
      · intro h; cases h
      · intro h
        exact absurd (h yp (List.mem_cons_self _ _)) (by rw [hv]; simp)
    | none =>
      rw [ih]
      constructor
      · intro h z hz
        rcases List.mem_cons.mp hz with rfl | hz2
        · exact hv
        · exact h z hz2
      · intro h z hz
        exact h z (List.mem_cons_of_mem _ hz)

/-- When the reversed walk reports a backtrack point, the list splits as
a viable-free prefix (the deeper yield points), the chosen yield point
with its alternative, and a suffix whose length is the reported index. -/
theorem findBacktrackRev_some_spec (dv : Bool) (dm : Nat → Nat → Bool) :
    ∀ (L : List YieldPoint) (i alt : Nat),
      findBacktrackRev dv dm L = some (i, alt) →
      ∃ pre yp post, L = pre ++ yp :: post ∧
        (∀ z ∈ pre, viableAlt dv dm z = none) ∧
        viableAlt dv dm yp = some alt ∧ i = post.length := by
  intro L
  induction L with
  | nil => intro i alt h; cases h
  | cons yp rest ih =>
    intro i alt h
    simp only [findBacktrackRev] at h
    cases hv : viableAlt dv dm yp with
    | some a =>
      rw [hv] at h
      injection h with h2
      injection h2 with hi ha
      refine ⟨[], yp, rest, rfl, ?_, ?_, hi.symm⟩
      · intro z hz; cases hz
      · rw [hv, ha]
    | none =>
      rw [hv] at h
      obtain ⟨pre, z, post, hL, hpre, hz, hi⟩ := ih i alt h
      refine ⟨yp :: pre, z, post, by rw [hL]; rfl, ?_, hz, hi⟩
      intro w hw
      rcases List.mem_cons.mp hw with rfl | hw2
      · exact hv
      · exact hpre w hw2

/-- Reading the element at the split point of an append. -/
theorem getD_append_cons (A B : List YieldPoint) (y : YieldPoint) :
    (A ++ y :: B).getD A.length default = y := by
  rw [List.getD_eq_getElem?_getD, List.getElem?_append_right (le_refl _)]
  simp

/-- Reading past the split point of an append lands in the tail part. -/
theorem getD_append_cons_mem (A B : List YieldPoint) (y : YieldPoint) (i2 : Nat)
    (h1 : A.length < i2) (h2 : i2 < (A ++ y :: B).length) :
    (A ++ y :: B).getD i2 default ∈ B := by
  rw [List.getD_eq_getElem?_getD, List.getElem?_append_right (by omega)]
  have hk : i2 - A.length = (i2 - A.length - 1) + 1 := by omega
  rw [hk, List.getElem?_cons_succ]
  have hlt : i2 - A.length - 1 < B.length := by
    simp only [List.length_append, List.length_cons] at h2; omega
  rw [List.getElem?_eq_getElem hlt]
  simp only [Option.getD_some]
  exact List.getElem_mem _

/-- C7: `exhaustive_find_backtrack` walks the recorded trace backward
from the deepest yield point; it returns the deepest yield point that
still has an alternative ready fiber listed after the chosen one and not
marked independent of it in the persistent dependency matrix (together
with that alternative), and it reports that no further schedule exists
exactly when no yield point of the trace has such an alternative. -/
theorem exhaustive_backtrack_spec (dv : Bool) (dm : Nat → Nat → Bool)
    (tr : List YieldPoint) :
    (findBacktrack dv dm tr = none ↔ ∀ yp ∈ tr, ∀ j, ¬IsViable dv dm yp j) ∧
    (∀ i alt, findBacktrack dv dm tr = some (i, alt) →
       i < tr.length ∧
       (∃ j, IsViable dv dm (tr.getD i default) j ∧
          (tr.getD i default).ready.getD j 0 = alt) ∧
       (∀ i2, i < i2 → i2 < tr.length → ∀ j, ¬IsViable dv dm (tr.getD i2 default) j)) := by
  constructor
  · rw [findBacktrack, findBacktrackRev_none_iff]
    constructor
    · intro h yp hyp j
      exact (viableAlt_none_iff dv dm yp).mp (h yp (List.mem_reverse.mpr hyp)) j
    · intro h yp hyp
      exact (viableAlt_none_iff dv dm yp).mpr (h yp (List.mem_reverse.mp hyp))
  · intro i alt h
    rw [findBacktrack] at h
    obtain ⟨pre, yp, post, hL, hpre, hyp, hi⟩ := findBacktrackRev_some_spec dv dm _ i alt h
    have htr : tr = post.reverse ++ yp :: pre.reverse := by
      have := congrArg List.reverse hL
      rw [List.reverse_reverse] at this
      rw [this]
      simp
    have hlen : tr.length = post.length + 1 + pre.length := by
      rw [htr]; simp; omega
    have hgetD : tr.getD i default = yp := by
      rw [htr, hi]
      have : post.length = post.reverse.length := by simp
      rw [this]
      exact getD_append_cons _ _ _
    refine ⟨by omega, ?_, ?_⟩
    · rw [hgetD]
      exact viableAlt_some_spec dv dm yp alt hyp
    · intro i2 hgt hlt j
      have hmem : tr.getD i2 default ∈ pre.reverse := by
        rw [htr]
        apply getD_append_cons_mem
        · simp; omega
        · rw [← htr]; exact hlt
      have hz := hpre _ (List.mem_reverse.mp hmem)
      exact (viableAlt_none_iff dv dm _).mp hz j

/-- C7 witness: on the concrete trace the walk skips the deepest yield
point (only one ready fiber) and backtracks at index 0, choosing the
alternative fiber 1 listed after the chosen fiber 0. -/
theorem exhaustive_backtrack_spec_witness :
    findBacktrack false exDepMatrix exTrace = some (0, 1) ∧ 0 < exTrace.length := by
  have h := (exhaustive_backtrack_spec false exDepMatrix exTrace).2 0 1 (by decide)
  exact ⟨by decide, h.1⟩

/-! ## Claim C9: worklist drain order -/

/-- Tracing children into a front-pushed stack mirrors tracing them into
the end-pushed worklist: same mark set, reversed pending list. -/
theorem foldl_pushNewFront_reverse (l : List Nat) : ∀ (m : Finset Nat) (w : List Nat),
    (l.foldl pushNewFront (m, w.reverse)).1 = (l.foldl pushNew (m, w)).1 ∧
    (l.foldl pushNewFront (m, w.reverse)).2 = (l.foldl pushNew (m, w)).2.reverse := by
  induction l with
  | nil => intro m w; exact ⟨rfl, rfl⟩
  | cons c rest ih =>
    intro m w
    simp only [List.foldl_cons]
    by_cases hc : c ∈ m
    · rw [pushNew, pushNewFront]
      simp only [hc, if_pos]
      exact ih m w
    · rw [pushNew, pushNewFront]
      simp only [hc, if_neg, if_false]
      have hrev : (c :: w.reverse) = (w ++ [c]).reverse := by simp
      rw [hrev]
      exact ih (insert c m) (w ++ [c])

/-- One step of the implemented drain on a worklist ending in `obj`:
`obj` is removed from the end and its unmarked children are appended. -/
theorem drain_concat (children : Nat → List Nat) (fuel : Nat) (m : Finset Nat)
    (A : List Nat) (obj : Nat) :
    drain children (fuel + 1) m (A ++ [obj]) =
      ((drain children fuel ((children obj).foldl pushNew (m, A)).1
          ((children obj).foldl pushNew (m, A)).2).1,
       obj :: (drain children fuel ((children obj).foldl pushNew (m, A)).1
          ((children obj).foldl pushNew (m, A)).2).2) := by
  rw [drain, List.getLast?_concat, List.dropLast_concat]

/-- C9 amended: the mark-phase drain of `__pluto_gc_collect` removes at
each step the MOST recently pushed worklist entry — the worklist is a
stack, so the traversal is last-in-first-out (depth-first), not
first-in-first-out — while still being an explicit worklist rather than
recursion: the implemented drain coincides, mark set and trace order
alike, with a pop-from-top stack traversal of the reversed worklist. -/
theorem gc_mark_order_lifo (children : Nat → List Nat) :
    ∀ (fuel : Nat) (m : Finset Nat) (ws : List Nat),
      drainStack children fuel m ws.reverse = drain children fuel m ws := by
  intro fuel
  induction fuel with
  | zero => intro m ws; rfl
  | succ fuel ih =>
    intro m ws
    cases hws : ws.reverse with
    | nil =>
      have hnil : ws = [] := by
        have := congrArg List.reverse hws
        rw [List.reverse_reverse] at this
        simpa using this
      rw [hnil]
      rfl
    | cons obj t =>
      have hws2 : ws = t.reverse ++ [obj] := by
        have := congrArg List.reverse hws
        rw [List.reverse_reverse] at this
        rw [this]
        simp
      rw [hws2, drain_concat]
      show drainStack children (fuel + 1) m (obj :: t) = _
      rw [drainStack]
      have hfold := foldl_pushNewFront_reverse (children obj) m t.reverse
      rw [List.reverse_reverse] at hfold
      rw [hfold.1, hfold.2, ih]

/-- C9 counterexample: on the four-object heap rooted at object 0 the
implemented drain traces objects in the order [0, 2, 1, 3] — object 2,
pushed last, is traced before object 1 — while the traversal the claim
describes (dequeue in push order) would trace [0, 1, 2, 3]; the two
orders differ. -/
theorem gc_mark_order_counterexample :
    (drain exChildren 16 (markRoots [0]).1 (markRoots [0]).2).2 = [0, 2, 1, 3] ∧
    (drainFifo exChildren 16 (markRoots [0]).1 (markRoots [0]).2).2 = [0, 1, 2, 3] ∧
    (drain exChildren 16 (markRoots [0]).1 (markRoots [0]).2).2 ≠
      (drainFifo exChildren 16 (markRoots [0]).1 (markRoots [0]).2).2 := by
  exact ⟨by decide, by decide, by decide⟩

/-! ## Claim C1: reachability soundness of a collection -/

/-- Behaviour of a run of mark-if-unmarked pushes: (1) the mark set gains
exactly the pushed candidates; (2) already-pending entries stay pending;
(3) pending entries come from the old pending list or the candidates;
(4) every marked object is either an old mark or still pending; (5) the
pending length grows exactly with the mark-set cardinality. -/
theorem pushNew_fold_spec (l : List Nat) : ∀ st : Finset Nat × List Nat,
    (∀ x, x ∈ (l.foldl pushNew st).1 ↔ x ∈ st.1 ∨ x ∈ l) ∧
    (∀ x ∈ st.2, x ∈ (l.foldl pushNew st).2) ∧
    (∀ x ∈ (l.foldl pushNew st).2, x ∈ st.2 ∨ x ∈ l) ∧
    (∀ x ∈ (l.foldl pushNew st).1, x ∈ st.1 ∨ x ∈ (l.foldl pushNew st).2) ∧
    ((l.foldl pushNew st).2.length + st.1.card = st.2.length + (l.foldl pushNew st).1.card) := by
  induction l with
  | nil =>
    intro st
    simp only [List.foldl_nil]
    refine ⟨fun x => by simp, fun x hx => hx, fun x hx => Or.inl hx,
      fun x hx => Or.inl hx, ?_⟩
    trivial
  | cons c rest ih =>
    intro st
    simp only [List.foldl_cons]
    by_cases hc : c ∈ st.1
    · have hpc : pushNew st c = st := by rw [pushNew, if_pos hc]
      rw [hpc]
      obtain ⟨i1, i2, i3, i4, i5⟩ := ih st
      refine ⟨?_, i2, ?_, i4, i5⟩
      · intro x
        rw [i1 x]
        constructor
        · rintro (hx | hx)
          · exact Or.inl hx
          · exact Or.inr (List.mem_cons_of_mem _ hx)
        · rintro (hx | hx)
          · exact Or.inl hx
          · rcases List.mem_cons.mp hx with rfl | hx2
            · exact Or.inl hc
            · exact Or.inr hx2
      · intro x hx
        rcases i3 x hx with hx2 | hx2
        · exact Or.inl hx2
        · exact Or.inr (List.mem_cons_of_mem _ hx2)
    · have hpc : pushNew st c = (insert c st.1, st.2 ++ [c]) := by rw [pushNew, if_neg hc]
      rw [hpc]
      obtain ⟨i1, i2, i3, i4, i5⟩ := ih (insert c st.1, st.2 ++ [c])
      refine ⟨?_, ?_, ?_, ?_, ?_⟩
      · intro x
        rw [i1 x]
        simp only [Finset.mem_insert, List.mem_cons]
        tauto
      · intro x hx
        exact i2 x (List.mem_append_left _ hx)
      · intro x hx
        rcases i3 x hx with hx2 | hx2
        · rcases List.mem_append.mp hx2 with hx3 | hx3
          · exact Or.inl hx3
          · have hxeq := List.mem_singleton.mp hx3
            rw [hxeq]
            exact Or.inr (List.mem_cons_self _ _)
        · exact Or.inr (List.mem_cons_of_mem _ hx2)
      · intro x hx
        rcases i4 x hx with hx2 | hx2
        · rcases Finset.mem_insert.mp hx2 with rfl | hx3
          · exact Or.inr (i2 _ (List.mem_append_right _ (List.mem_singleton_self _)))
          · exact Or.inl hx3
        · exact Or.inr hx2
      · have hcard : (insert c st.1).card = st.1.card + 1 :=
          Finset.card_insert_of_not_mem hc
        rw [hcard] at i5
        simp only [List.length_append, List.length_singleton] at i5
        omega

/-- Root marking: the mark flags end up set on exactly the hit headers,
every hit header is on the worklist and vice versa, and the worklist
length equals the number of marked headers. -/
theorem markRoots_spec (roots : List Nat) :
    (∀ x, x ∈ (markRoots roots).1 ↔ x ∈ roots) ∧
    (∀ x ∈ (markRoots roots).2, x ∈ roots) ∧
    (∀ x ∈ (markRoots roots).1, x ∈ (markRoots roots).2) ∧
    (∀ x ∈ (markRoots roots).2, x ∈ (markRoots roots).1) ∧
    (markRoots roots).2.length = (markRoots roots).1.card := by
  obtain ⟨i1, i2, i3, i4, i5⟩ := pushNew_fold_spec roots (∅, [])
  refine ⟨?_, ?_, ?_, ?_, ?_⟩
  · intro x
    rw [markRoots, i1 x]
    simp
  · intro x hx
    rcases i3 x hx with h | h
    · cases h
    · exact h
  · intro x hx
    rcases i4 x hx with h | h
    · exact absurd h (Finset.not_mem_empty x)
    · exact h
  · intro x hx
    have hr : x ∈ roots := by
      rcases i3 x hx with h | h
      · cases h
      · exact h
    exact (i1 x).mpr (Or.inr hr)
  · simpa using i5

/-- Soundness of the mark drain: any property closed under the tracing
relation that holds of all marked and all pending objects holds of
everything marked when the drain finishes. -/
theorem drain_sound (children : Nat → List Nat) (R : Nat → Prop)
    (hR : ∀ a, R a → ∀ c ∈ children a, R c) :
    ∀ (fuel : Nat) (m : Finset Nat) (ws : List Nat),
      (∀ x ∈ m, R x) → (∀ x ∈ ws, R x) →
      ∀ x ∈ (drain children fuel m ws).1, R x := by
  intro fuel
  induction fuel with
  | zero => intro m ws hm _ x hx; exact hm x hx
  | succ fuel ih =>
    intro m ws hm hws x hx
    rcases List.eq_nil_or_concat ws with rfl | ⟨A, obj, rfl⟩
    · exact hm x hx
    · rw [List.concat_eq_append] at hws hx
      rw [drain_concat] at hx
      have hobj : R obj := hws obj (by simp)
      obtain ⟨i1, _, i3, _, _⟩ := pushNew_fold_spec (children obj) (m, A)
      refine ih _ _ ?_ ?_ x hx
      · intro y hy
        rcases (i1 y).mp hy with h | h
        · exact hm y h
        · exact hR obj hobj y h
      · intro y hy
        rcases i3 y hy with h | h
        · exact hws y (List.mem_append_left _ h)
        · exact hR obj hobj y h

/-- Completeness and termination of the mark drain: on a heap whose
tracing relation stays inside the header set `S`, with every pending
object marked, every marked object either pending or fully traced, and
fuel at least the drain measure, the final mark set contains the initial
one and is closed under tracing. -/
theorem drain_complete (children : Nat → List Nat) (S : Finset Nat)
    (hchild : ∀ a ∈ S, ∀ c ∈ children a, c ∈ S) :
    ∀ (fuel : Nat) (m : Finset Nat) (ws : List Nat),
      (∀ x ∈ ws, x ∈ m) →
      (∀ x ∈ m, x ∈ S) →
      (∀ x ∈ m, x ∈ ws ∨ ∀ c ∈ children x, c ∈ m) →
      2 * (S.card - m.card) + ws.length ≤ fuel →
      (∀ x ∈ m, x ∈ (drain children fuel m ws).1) ∧
      (∀ x ∈ (drain children fuel m ws).1, ∀ c ∈ children x,
        c ∈ (drain children fuel m ws).1) := by
  intro fuel
  induction fuel with
  | zero =>
    intro m ws hws hm hinv hfuel
    have hnil : ws = [] := by
      cases ws with
      | nil => rfl
      | cons a t => simp at hfuel
    subst hnil
    refine ⟨fun x hx => hx, ?_⟩
    intro x hx c hc
    rcases hinv x hx with h | h
    · cases h
    · exact h c hc
  | succ fuel ih =>
    intro m ws hws hm hinv hfuel
    rcases List.eq_nil_or_concat ws with rfl | ⟨A, obj, rfl⟩
    · refine ⟨fun x hx => hx, ?_⟩
      intro x hx c hc
      rcases hinv x hx with h | h
      · cases h
      · exact h c hc
    · rw [List.concat_eq_append] at hws hinv hfuel ⊢
      rw [drain_concat]
      obtain ⟨i1, i2, i3, i4, i5⟩ := pushNew_fold_spec (children obj) (m, A)
      have hobjm : obj ∈ m := hws obj (by simp)
      have hobjS : obj ∈ S := hm obj hobjm
      have hmono : ∀ x ∈ m, x ∈ ((children obj).foldl pushNew (m, A)).1 :=
        fun x hx => (i1 x).mpr (Or.inl hx)
      have hchobj : ∀ c ∈ children obj, c ∈ ((children obj).foldl pushNew (m, A)).1 :=
        fun c hc => (i1 c).mpr (Or.inr hc)
      have hws2 : ∀ x ∈ ((children obj).foldl pushNew (m, A)).2,
          x ∈ ((children obj).foldl pushNew (m, A)).1 := by
        intro x hx
        rcases i3 x hx with h | h
        · exact hmono x (hws x (List.mem_append_left _ h))
        · exact hchobj x h
      have hm2 : ∀ x ∈ ((children obj).foldl pushNew (m, A)).1, x ∈ S := by
        intro x hx
        rcases (i1 x).mp hx with h | h
        · exact hm x h
        · exact hchild obj hobjS x h
      have hinv2 : ∀ x ∈ ((children obj).foldl pushNew (m, A)).1,
          x ∈ ((children obj).foldl pushNew (m, A)).2 ∨
            ∀ c ∈ children x, c ∈ ((children obj).foldl pushNew (m, A)).1 := by
        intro x hx
        rcases i4 x hx with h | h
        · rcases hinv x h with hw | hcl
          · rcases List.mem_append.mp hw with hA | hO
            · exact Or.inl (i2 x hA)
            · have hxobj := List.mem_singleton.mp hO
              subst hxobj
              exact Or.inr hchobj
          · exact Or.inr (fun c hc => hmono c (hcl c hc))
        · exact Or.inl h
      have hfuel2 : 2 * (S.card - ((children obj).foldl pushNew (m, A)).1.card) +
          ((children obj).foldl pushNew (m, A)).2.length ≤ fuel := by
        have hsub1 : m ⊆ ((children obj).foldl pushNew (m, A)).1 :=
          fun x hx => hmono x hx
        have hc1 := Finset.card_le_card hsub1
        have hsub2 : ((children obj).foldl pushNew (m, A)).1 ⊆ S :=
          fun x hx => hm2 x hx
        have hc2 := Finset.card_le_card hsub2
        have hlen : (A ++ [obj]).length = A.length + 1 := by simp
        have i5x : ((children obj).foldl pushNew (m, A)).2.length + m.card =
            A.length + ((children obj).foldl pushNew (m, A)).1.card := i5
        omega
      obtain ⟨c1, c2⟩ := ih ((children obj).foldl pushNew (m, A)).1
        ((children obj).foldl pushNew (m, A)).2 hws2 hm2 hinv2 hfuel2
      exact ⟨fun x hx => c1 x (hmono x hx), c2⟩

/-- C1: a collection keeps on the allocation list exactly the headers
transitively reachable from the declared root hits.  Hypotheses: the root
hits lie on the allocation list, tracing only reaches allocation-list
headers (both guaranteed by the interval classification, which only ever
returns live headers), and the drain is given at least its worst-case
number of iterations (the C loop runs until the worklist empties; the
fuel only makes the recursion structural). -/
theorem gc_collect_soundness (children : Nat → List Nat) (allocList roots : List Nat)
    (fuel : Nat)
    (hroots : ∀ r ∈ roots, r ∈ allocList)
    (hchild : ∀ a b, b ∈ children a → b ∈ allocList)
    (hfuel : 2 * allocList.length + roots.length ≤ fuel) :
    ∀ i, i ∈ gcCollect children fuel allocList roots ↔
      (i ∈ allocList ∧ ∃ r ∈ roots, Reaches children r i) := by
  intro i
  obtain ⟨m1, m2, m3, m4, m5⟩ := markRoots_spec roots
  have hSchild : ∀ a ∈ allocList.toFinset, ∀ c ∈ children a, c ∈ allocList.toFinset := by
    intro a _ c hc
    exact List.mem_toFinset.mpr (hchild a c hc)
  have hm0 : ∀ x ∈ (markRoots roots).1, x ∈ allocList.toFinset := by
    intro x hx
    exact List.mem_toFinset.mpr (hroots x ((m1 x).mp hx))
  have hinv0 : ∀ x ∈ (markRoots roots).1, x ∈ (markRoots roots).2 ∨
      ∀ c ∈ children x, c ∈ (markRoots roots).1 :=
    fun x hx => Or.inl (m3 x hx)
  have hcard0 : (markRoots roots).1.card ≤ roots.length := by
    have heq : (markRoots roots).1 = roots.toFinset := by
      apply Finset.ext
      intro x
      rw [m1 x, List.mem_toFinset]
    rw [heq]
    exact roots.toFinset_card_le
  have hfuel0 : 2 * (allocList.toFinset.card - (markRoots roots).1.card) +
      (markRoots roots).2.length ≤ fuel := by
    have h1 := allocList.toFinset_card_le
    omega
  obtain ⟨hmono, hclosed⟩ := drain_complete children allocList.toFinset hSchild fuel
    (markRoots roots).1 (markRoots roots).2 m4 hm0 hinv0 hfuel0
  simp only [gcCollect, List.mem_filter, decide_eq_true_eq]
  constructor
  · rintro ⟨hial, hmf⟩
    refine ⟨hial, ?_⟩
    refine drain_sound children (fun x => ∃ r ∈ roots, Reaches children r x) ?_ fuel
      (markRoots roots).1 (markRoots roots).2 ?_ ?_ i hmf
    · rintro a ⟨r, hr, hpath⟩ c hc
      exact ⟨r, hr, hpath.tail hc⟩
    · intro x hx
      exact ⟨x, (m1 x).mp hx, Relation.ReflTransGen.refl⟩
    · intro x hx
      exact ⟨x, m2 x hx, Relation.ReflTransGen.refl⟩
  · rintro ⟨hial, r, hr, hpath⟩
    have hmem : i ∈ (drain children fuel (markRoots roots).1 (markRoots roots).2).1 := by
      clear hial
      induction hpath with
      | refl => exact hmono r ((m1 r).mpr hr)
      | tail hab hbc ih => exact hclosed _ ih _ hbc
    exact ⟨hial, hmem⟩

/-- C1 witness: on the heap where 0 points to 1 and 2 and 1 points to 3,
collecting with root hit 0 on the allocation list [0, 1, 2, 3, 4] keeps
exactly [0, 1, 2, 3] — header 1 survives because it is reachable, header
4 is swept. -/
theorem gc_collect_soundness_witness :
    1 ∈ gcCollect exChildren 32 [0, 1, 2, 3, 4] [0] ∧
      gcCollect exChildren 32 [0, 1, 2, 3, 4] [0] = [0, 1, 2, 3] := by
  have hchild : ∀ a b, b ∈ exChildren a → b ∈ [0, 1, 2, 3, 4] := by
    intro a b hb
    unfold exChildren at hb
    split at hb
    · simp at hb
      rcases hb with rfl | rfl
      · decide
      · decide
    · split at hb
      · simp at hb
        subst hb
        decide
      · simp at hb
  have h := gc_collect_soundness exChildren [0, 1, 2, 3, 4] [0] 32
    (by decide) hchild (by decide)
  refine ⟨?_, by decide⟩
  exact (h 1).mpr ⟨by decide, 0, by decide,
    Relation.ReflTransGen.tail Relation.ReflTransGen.refl (by decide)⟩

end Pluto
